import Mathlib

/-!
Shallow embedding of the reco-bin command-line framework core
(`src/lib/command.js` and the process/argv helper module) together with
proofs of the specification claims about it.

JavaScript objects are modelled as association lists from string keys to
`JsVal` values, in insertion order, with unique keys (as JS objects have).
An assignment `obj[k] = v` updates the first entry with key `k` in place,
or appends a fresh entry at the end, exactly following JS semantics; an
assignment of `undefined` keeps the key present (with value `undefined`),
which is how the source "clears" keys.
-/

/-- Model of a JavaScript value as it appears in parsed-argv objects:
`undefined`, a boolean, a number, or a string. -/
inductive JsVal where
  | undef : JsVal
  | bool : Bool → JsVal
  | num : Int → JsVal
  | str : String → JsVal
deriving DecidableEq, Repr

/-- Association-list lookup: the value of the first entry with key `k`. -/
def alGet {β : Type _} (o : List (String × β)) (k : String) : Option β :=
  match o with
  | [] => none
  | p :: rest => if p.1 = k then some p.2 else alGet rest k

/-- Association-list assignment, following JS object / `Map.set` semantics:
update the entry with key `k` in place, or append a fresh entry at the end. -/
def alSet {β : Type _} (o : List (String × β)) (k : String) (v : β) : List (String × β) :=
  match o with
  | [] => [(k, v)]
  | p :: rest => if p.1 = k then (k, v) :: rest else p :: alSet rest k v

/-- Presence of a key, following JS `Map.has` / `in` semantics: a key set to
`undefined` is still present. -/
def alHas {β : Type _} (o : List (String × β)) (k : String) : Bool :=
  (alGet o k).isSome

/-- Key list of an object, in insertion order (JS `Object.keys`). -/
def alKeys {β : Type _} (o : List (String × β)) : List String :=
  o.map Prod.fst

/-- Model of a parsed-argv object (yargs output): string keys to JS values. -/
abbrev JsObj := List (String × JsVal)

/-- Property read on a JS object: a missing key reads as `undefined`. -/
def getProp (o : JsObj) (k : String) : JsVal :=
  (alGet o k).getD JsVal.undef

/-- Property assignment on a JS object. -/
def setProp (o : JsObj) (k : String) (v : JsVal) : JsObj :=
  alSet o k v

/-- Model of `Object.assign(target, src)`: copy every entry of `src` into
`target` in order, overwriting entries whose key already exists. -/
def objAssign (target src : JsObj) : JsObj :=
  src.foldl (fun t p => alSet t p.1 p.2) target

theorem alGet_alSet {β : Type _} (o : List (String × β)) (k k' : String) (v : β) :
    alGet (alSet o k v) k' = if k' = k then some v else alGet o k' := by
  induction o with
  | nil =>
    by_cases h : k' = k
    · simp [alSet, alGet, h]
    · have h2 : ¬ k = k' := fun hh => h hh.symm
      simp [alSet, alGet, h, h2]
  | cons p rest ih =>
    by_cases hp : p.1 = k
    · by_cases h : k' = k
      · simp [alSet, alGet, hp, h]
      · have h2 : ¬ k = k' := fun hh => h hh.symm
        simp [alSet, alGet, hp, h, h2]
    · by_cases hq : p.1 = k'
      · have h : ¬ k' = k := fun hk => hp (hq.trans hk)
        simp [alSet, alGet, hp, hq, h]
      · simp [alSet, alGet, hp, hq, ih]

theorem getProp_setProp (o : JsObj) (k k' : String) (v : JsVal) :
    getProp (setProp o k v) k' = if k' = k then v else getProp o k' := by
  simp only [getProp, setProp, alGet_alSet]
  by_cases h : k' = k <;> simp [h]

theorem alHas_alSet {β : Type _} (o : List (String × β)) (k k' : String) (v : β) :
    alHas (alSet o k v) k' = (k' == k || alHas o k') := by
  simp only [alHas, alGet_alSet]
  by_cases h : k' = k <;> simp [h]

theorem alKeys_alSet {β : Type _} (o : List (String × β)) (k : String) (v : β) :
    alKeys (alSet o k v) = if alHas o k then alKeys o else alKeys o ++ [k] := by
  induction o with
  | nil => simp [alSet, alHas, alGet, alKeys]
  | cons p rest ih =>
    simp only [alSet, alHas, alGet]
    by_cases h : p.1 = k
    · simp [h, alKeys]
    · simp only [if_neg h, alKeys, List.map_cons]
      simp only [alKeys, alHas] at ih
      by_cases h2 : (alGet rest k).isSome <;> simp [h2, ih]

theorem alHas_iff_mem_alKeys {β : Type _} (o : List (String × β)) (k : String) :
    alHas o k = true ↔ k ∈ alKeys o := by
  induction o with
  | nil => simp [alHas, alGet, alKeys]
  | cons p rest ih =>
    simp only [alHas, alGet, alKeys, List.map_cons, List.mem_cons]
    by_cases h : p.1 = k
    · simp [h]
    · simpa [h, Ne.symm h, alHas, alKeys] using ih

theorem nodup_alKeys_alSet {β : Type _} (o : List (String × β)) (k : String) (v : β)
    (h : (alKeys o).Nodup) : (alKeys (alSet o k v)).Nodup := by
  rw [alKeys_alSet]
  by_cases hh : alHas o k
  · simpa [hh] using h
  · have hk : k ∉ alKeys o := fun hm => hh ((alHas_iff_mem_alKeys o k).mpr hm)
    simp only [hh, if_neg]
    simpa [List.nodup_append] using ⟨h, hk⟩

theorem alGet_of_mem_nodup {β : Type _} {o : List (String × β)} {k : String} {v : β}
    (hnd : (alKeys o).Nodup) (hm : (k, v) ∈ o) : alGet o k = some v := by
  induction o with
  | nil => simp at hm
  | cons p rest ih =>
    simp only [alKeys, List.map_cons, List.nodup_cons] at hnd
    rcases List.mem_cons.mp hm with h | h
    · simp [alGet, ← h]
    · have hk : p.1 ≠ k := by
        intro he
        exact hnd.1 (he ▸ (List.mem_map.mpr ⟨(k, v), h, rfl⟩))
      simpa [alGet, hk] using ih hnd.2 h

theorem mem_of_alGet_eq_some {β : Type _} {o : List (String × β)} {k : String} {v : β}
    (h : alGet o k = some v) : (k, v) ∈ o := by
  induction o with
  | nil => simp [alGet] at h
  | cons p rest ih =>
    by_cases hk : p.1 = k
    · have hv : p.2 = v := by simpa [alGet, hk] using h
      exact List.mem_cons.mpr (Or.inl (by rw [← hk, ← hv]))
    · exact List.mem_cons.mpr (Or.inr (ih (by simpa [alGet, hk] using h)))

/-- Generalized fold-preservation lemma: a property preserved by every step
applied to a list element is preserved by the whole fold. -/
theorem foldl_preserve {α β : Type _} {f : β → α → β} {P : β → Prop} :
    ∀ (l : List α) (b : β), (∀ b' a, a ∈ l → P b' → P (f b' a)) → P b → P (l.foldl f b)
  | [], b, _, hb => hb
  | a :: l, b, hstep, hb =>
    foldl_preserve l (f b a) (fun b' x hx => hstep b' x (List.mem_cons_of_mem a hx))
      (hstep b a (List.mem_cons_self a l) hb)

/-!
Raw argument vector operations from `src/lib/command.js`.

`removeCommandToken` models the subcommand branch of `[DISPATCH]`:
`const rawArgv = this.rawArgv.slice(); rawArgv.splice(rawArgv.indexOf(commandName), 1);`
operating on a copy of the vector. `Array.prototype.indexOf` yields the first
index or `-1`; `splice(i, 1)` with `i = -1` removes the last element.

`startCompletionRewrite` models the preamble of `start()`:
`const index = this.rawArgv.indexOf('--get-yargs-completions');
 if (index !== -1) this.rawArgv.splice(index, 2, `--AUTO_COMPLETIONS=${this.rawArgv.join(',')}`);`
which edits `this.rawArgv` itself (no copy is taken there); the replacement
token is built from the pre-edit vector because the argument is evaluated
before `splice` runs.
-/

/-- First index of `x` in `l` (JS `Array.prototype.indexOf`, `none` for `-1`). -/
def jsIndexOfAux (l : List String) (x : String) : Option Nat :=
  match l with
  | [] => none
  | a :: t => if a = x then some 0 else (jsIndexOfAux t x).map (· + 1)

/-- Reduced vector of the dispatch subcommand branch: a copy of the raw argv
with `splice(indexOf(name), 1)` applied. When `name` is absent, `indexOf`
gives `-1` and `splice(-1, 1)` drops the last element. -/
def removeCommandToken (l : List String) (x : String) : List String :=
  match jsIndexOfAux l x with
  | some i => l.take i ++ l.drop (i + 1)
  | none => l.take (l.length - 1)

/-- Raw argv of a node after the completion-marker rewrite in `start()`:
`splice(index, 2, newToken)` where `newToken` is
`"--AUTO_COMPLETIONS=" ++ join(',')` of the pre-edit vector. -/
def startCompletionRewrite (rawArgv : List String) : List String :=
  match jsIndexOfAux rawArgv "--get-yargs-completions" with
  | none => rawArgv
  | some i =>
      rawArgv.take i
        ++ [String.append "--AUTO_COMPLETIONS=" (String.intercalate "," rawArgv)]
        ++ rawArgv.drop (i + 2)

theorem jsIndexOfAux_eq_none_of_not_mem {l : List String} {x : String} (h : x ∉ l) :
    jsIndexOfAux l x = none := by
  induction l with
  | nil => rfl
  | cons a t ih =>
    have hax : ¬ a = x := fun he => h (he ▸ List.mem_cons_self a t)
    have hxt : x ∉ t := fun hm => h (List.mem_cons_of_mem a hm)
    simp [jsIndexOfAux, hax, ih hxt]

theorem jsIndexOfAux_isSome_of_mem {l : List String} {x : String} (h : x ∈ l) :
    ∃ i, jsIndexOfAux l x = some i := by
  induction l with
  | nil => simp at h
  | cons a t ih =>
    by_cases hax : a = x
    · exact ⟨0, by simp [jsIndexOfAux, hax]⟩
    · have hxt : x ∈ t := by
        rcases List.mem_cons.mp h with he | hm
        · exact absurd he.symm hax
        · exact hm
      obtain ⟨i, hi⟩ := ih hxt
      exact ⟨i + 1, by simp [jsIndexOfAux, hax, hi]⟩

/-- Correspondence of the slice-and-splice edit with first-occurrence removal:
when the command token occurs in the vector, the code removes exactly its
first occurrence. -/
theorem removeCommandToken_eq_erase {l : List String} {x : String} (h : x ∈ l) :
    removeCommandToken l x = l.erase x := by
  induction l with
  | nil => simp at h
  | cons a t ih =>
    by_cases hax : a = x
    · simp [removeCommandToken, jsIndexOfAux, hax, List.erase_cons]
    · have hxt : x ∈ t := by
        rcases List.mem_cons.mp h with he | hm
        · exact absurd he.symm hax
        · exact hm
      obtain ⟨i, hi⟩ := jsIndexOfAux_isSome_of_mem hxt
      have hidx : jsIndexOfAux (a :: t) x = some (i + 1) := by
        simp [jsIndexOfAux, hax, hi]
      have hr : List.take i t ++ List.drop (i + 1) t = t.erase x := by
        simpa [removeCommandToken, hi] using ih hxt
      simp only [removeCommandToken, hidx, List.take_succ_cons, List.drop_succ_cons,
        List.cons_append, List.erase_cons]
      simp [hax, hr]

/-!
Command registry and dispatch, from `src/lib/command.js`.

The registry `this[COMMANDS]` is a JS `Map` from command-name strings to
command classes; command classes are modelled by abstract identifiers
(`Nat`), since only their identity matters to the claims. The external
yargs parser is out of scope (an external collaborator per the spec), so
`dispatchStep` receives the parser's outputs — the positional list, the
truthiness of `parsed.version` — as inputs.
-/

/-- Registry of subcommands: JS `Map<string, Command>` with command classes
as abstract identifiers. -/
abbrev Registry := List (String × Nat)

/-- Error kinds raised by registration-time assertions in `command.js`. -/
inductive BinError where
  | missingCommand (name : String)
  | emptyName
  | emptyAlias
deriving DecidableEq, Repr

/-- Model of `alias(alias, name)`: asserts the alias is truthy and the target
name already registered, then points the alias at the same command node.
Source: `assert(alias); assert(this[COMMANDS].has(name));
this[COMMANDS].set(alias, this[COMMANDS].get(name));` -/
def aliasCmd (reg : Registry) (a n : String) : Except BinError Registry :=
  if a = "" then .error .emptyAlias
  else
    match alGet reg n with
    | none => .error (.missingCommand n)
    | some cmd => .ok (alSet reg a cmd)

/-- Model of `add(name, target)` for a target that is already a command
class: asserts the name is truthy, inserts with `Map.set` (which silently
replaces an existing entry), then registers `target.alias` when the target
declares a truthy alias. The file-path resolution branch is I/O glue and out
of scope. -/
def addCmd (reg : Registry) (name : String) (target : Nat)
    (targetAlias : Option String) : Except BinError Registry :=
  if name = "" then .error .emptyName
  else
    let reg' := alSet reg name target
    match targetAlias with
    | none => .ok reg'
    | some a => if a = "" then .ok reg' else aliasCmd reg' a name

/-- Outcome of one `[DISPATCH]` step: print the configured version, delegate
to a subcommand (constructing a new dispatcher on the reduced vector and
recursing), emit shell completions, or run this node's own `run`. -/
inductive DispatchAction where
  | printVersion : DispatchAction
  | delegate (cmd : Nat) (reduced : List String) : DispatchAction
  | completion : DispatchAction
  | runSelf : DispatchAction
deriving DecidableEq, Repr

/-- Model of the `[DISPATCH]` decision: after parsing, print the version when
`parsed.version` and a configured version are both truthy; otherwise, when
the first positional token names a registered command, delegate to it with
the token spliced out of a copy of the raw argv; otherwise emit completions
or invoke this node's own `run` with the derived context. -/
def dispatchStep (commands : Registry) (rawArgv : List String)
    (parsedPos : List String) (parsedVersion : Bool) (hasVersion : Bool)
    (autoCompletions : Bool) : DispatchAction :=
  if parsedVersion && hasVersion then .printVersion
  else
    match parsedPos.head? with
    | some name =>
      match alGet commands name with
      | some cmd => .delegate cmd (removeCommandToken rawArgv name)
      | none => if autoCompletions then .completion else .runSelf
    | none => if autoCompletions then .completion else .runSelf

/-!
Process supervisor, from the helper module (`gracefull`, `forkNode`,
`spawn`).

Child process handles are abstract identifiers (`Nat`). The module-level
mutable state — the `childs` set, the `hadHook` flag, the `signal` closure
variable — is an explicit `SupState`. Node's `process.once(event, handler)`
registers a handler consumed by its first firing; this is modelled by the
`sigHandlersArmed` list and the `exitHookArmed` flag. A received signal runs
its one-shot handler, which records the signal and calls `process.exit(0)`,
which in turn fires the parent's `exit` event; the one-shot `exit` handler
forwards the recorded signal to every still-registered child, which the
model records in `killLog`.
-/

/-- Mutable module-level state of the process supervisor. -/
structure SupState where
  childs : List Nat
  hadHook : Bool
  signal : Option String
  sigHandlersArmed : List String
  exitHookArmed : Bool
  killLog : List (Nat × Option String)
deriving DecidableEq, Repr

/-- State before any launch: empty registry, no hooks installed. -/
def initSup : SupState :=
  { childs := [], hadHook := false, signal := none,
    sigHandlersArmed := [], exitHookArmed := false, killLog := [] }

/-- Insertion into the `childs` JS `Set`: no duplicates, insertion order. -/
def setAdd (s : List Nat) (x : Nat) : List Nat :=
  if x ∈ s then s else s ++ [x]

/-- Model of `gracefull(proc)`: record the child handle, then — only on the
first call ever — install one-shot handlers for SIGINT / SIGQUIT / SIGTERM
and for the parent's own `exit` event. -/
def gracefull (st : SupState) (pid : Nat) : SupState :=
  let st := { st with childs := setAdd st.childs pid }
  if st.hadHook then st
  else
    { st with
      hadHook := true
      sigHandlersArmed := ["SIGINT", "SIGQUIT", "SIGTERM"]
      exitHookArmed := true }

/-- Firing of the parent's `exit` event: the one-shot handler, when still
armed, forwards the recorded signal to every still-registered child. -/
def onExit (st : SupState) : SupState :=
  if st.exitHookArmed then
    { st with
      exitHookArmed := false
      killLog := st.killLog ++ st.childs.map (fun c => (c, st.signal)) }
  else st

/-- Receipt of a termination signal by the parent: the one-shot handler,
when still armed for this signal, records it and calls `process.exit(0)`,
which fires the `exit` event. -/
def onSignal (st : SupState) (sig : String) : SupState :=
  if sig ∈ st.sigHandlersArmed then
    onExit { st with
      sigHandlersArmed := st.sigHandlersArmed.filter (· ≠ sig)
      signal := some sig }
  else st

/-- Error with which `forkNode`'s promise rejects: the message interpolates
the module path, arguments and exit code, and `err.code` carries the code. -/
structure ForkErr where
  message : String
  code : Int
deriving DecidableEq, Repr

/-- Error with which `spawn`'s promise rejects on a nonzero exit: a plain
`Error` whose message ends with the exit code (no `code` property is set). -/
structure SpawnErr where
  message : String
deriving DecidableEq, Repr

/-- Model of `forkNode`'s `exit` listener: delete the handle from the
registry, then settle the promise — reject with a code-carrying error when
the code is nonzero, resolve otherwise. -/
def forkOnExit (st : SupState) (pid : Nat) (modulePath : String)
    (args : List String) (code : Int) : SupState × Except ForkErr Unit :=
  let st := { st with childs := st.childs.filter (· ≠ pid) }
  if code ≠ 0 then
    (st, .error
      { message := modulePath ++ " " ++ String.intercalate "," args
          ++ " exit with code " ++ toString code
        code := code })
  else (st, .ok ())

/-- Model of `spawn`'s `exit` listener: delete the handle from the registry,
then settle — reject when the code is nonzero, resolve otherwise. -/
def spawnOnExit (st : SupState) (pid : Nat) (cmd : String)
    (args : List String) (code : Int) : SupState × Except SpawnErr Unit :=
  let st := { st with childs := st.childs.filter (· ≠ pid) }
  if code ≠ 0 then
    (st, .error
      { message := "spawn " ++ cmd ++ " " ++ String.intercalate " " args
          ++ " fail, exit code: " ++ toString code })
  else (st, .ok ())

/-!
Exec-argv extraction (`extractExecArgv` in the helper module) and the
Execution Context derivation (the `context` getter in `src/lib/command.js`).
-/

/-- Debug/inspect family of keys recognized by `extractExecArgv`. -/
def debugKeys : List String :=
  ["debug", "debug-brk", "debug-port", "inspect", "inspect-brk", "inspect-port"]

/-- Harmony/staging key test of `extractExecArgv`:
`match(key, ['es_staging', 'expose_debug_as', /^harmony.*/])` — the regex
anchored at the start means "begins with `harmony`". -/
def isHarmonyKey (k : String) : Bool :=
  k == "es_staging" || k == "expose_debug_as" || "harmony".data.isPrefixOf k.data

/-- Result shape of `extractExecArgv`: `{ debugPort, debugOptions, execArgvObj }`. -/
structure ExecArgvResult where
  debugPort : Option Int
  debugOptions : JsObj
  execArgvObj : JsObj
deriving DecidableEq, Repr

/-- Loop body of `extractExecArgv` for one argv entry: skip `undefined`
values; a debug-family key feeds `debugOptions` and `execArgvObj` and, when
its value is a number, sets `debugPort`; a harmony/staging key feeds
`execArgvObj` only. -/
def extractStep (acc : ExecArgvResult) (p : String × JsVal) : ExecArgvResult :=
  if p.2 = JsVal.undef then acc
  else if debugKeys.contains p.1 then
    { debugPort := match p.2 with | JsVal.num n => some n | _ => acc.debugPort
      debugOptions := alSet acc.debugOptions p.1 p.2
      execArgvObj := alSet acc.execArgvObj p.1 p.2 }
  else if isHarmonyKey p.1 then
    { acc with execArgvObj := alSet acc.execArgvObj p.1 p.2 }
  else acc

/-- Model of `helper.extractExecArgv(argv)`: fold the loop body over the
entries of the argv object in key order (JS objects have unique keys, so
iterating entries coincides with iterating `Object.keys` and indexing). -/
def extractExecArgv (argv : JsObj) : ExecArgvResult :=
  argv.foldl extractStep ⟨none, [], []⟩

/-- Model of the exec-argv merge in the `context` getter: extract from the
command argv; when the `NODE_DEBUG_OPTION` environment variable is set
(modelled as `some` of its parsed form), extract from it as well and merge —
`debugPort = obj.debugPort || debugPort` (the environment's port wins unless
it is falsy), then `Object.assign` of `debugOptions` and `execArgvObj` with
the environment side copied in last. -/
def mergeExecArgv (argv : JsObj) (envArgv : Option JsObj) : ExecArgvResult :=
  let r := extractExecArgv argv
  match envArgv with
  | none => r
  | some e =>
    let o := extractExecArgv e
    { debugPort :=
        match o.debugPort with
        | some n => if n = 0 then r.debugPort else some n
        | none => r.debugPort
      debugOptions := objAssign r.debugOptions o.debugOptions
      execArgvObj := objAssign r.execArgvObj o.execArgvObj }

/-- Hyphen-to-camel key conversion (`changeCase.camel` as used on argv keys). -/
def camelizeAux : List Char → Bool → List Char
  | [], _ => []
  | c :: cs, up =>
    if c = '-' then camelizeAux cs true
    else (if up then c.toUpper else c) :: camelizeAux cs false

/-- Conversion of a hyphenated flag key to its camelCase variant. -/
def camelize (s : String) : String :=
  ⟨camelizeAux s.data false⟩

/-- Parser options of a dispatcher node (`this.parserOptions`). -/
structure ParserOptions where
  execArgv : Bool
  removeAlias : Bool
  removeCamelCase : Bool
deriving DecidableEq, Repr

/-- Default parser options set in the `CommonBin` constructor. -/
def defaultParserOptions : ParserOptions :=
  { execArgv := true, removeAlias := true, removeCamelCase := false }

/-- Unconditional clearing of the global flag keys at the start of the
`context` getter: `argv.help = argv.h = argv.version = argv.v = undefined`. -/
def clearGlobalKeys (argv : JsObj) : JsObj :=
  setProp (setProp (setProp (setProp argv "help" JsVal.undef) "h" JsVal.undef)
    "version" JsVal.undef) "v" JsVal.undef

/-- Alias-removal pass of the `context` getter: for every entry of the yargs
alias map, clear every aliased key from argv. -/
def removeAliasKeys (aliases : List (String × List String)) (argv : JsObj) : JsObj :=
  aliases.foldl (fun a kv => kv.2.foldl (fun a item => setProp a item JsVal.undef) a) argv

/-- CamelCase-removal pass of the `context` getter: for every hyphenated key
of argv (keys computed before the loop), clear its camelCase variant. -/
def removeCamelKeys (argv : JsObj) : JsObj :=
  (alKeys argv).foldl
    (fun a k => if k.contains '-' then setProp a (camelize k) JsVal.undef else a) argv

/-- Removal of the matched exec-argv keys from argv: for every key of the
merged `execArgvObj`, clear the key and its camelCase variant. -/
def removeExecKeys (eobj : JsObj) (argv : JsObj) : JsObj :=
  (alKeys eobj).foldl
    (fun a k => setProp (setProp a k JsVal.undef) (camelize k) JsVal.undef) argv

/-- Execution Context as derived by the `context` getter. The exec-argv
fields are `some` exactly when extraction matched at least one key; the
context's raw `debugPort` value may itself be absent even when matched. -/
structure Context where
  argv : JsObj
  rawArgv : List String
  execArgvObj : Option JsObj
  debugOptions : Option JsObj
  debugPort : Option (Option Int)
deriving DecidableEq, Repr

/-- Model of the `context` getter: clear the global flag keys; apply the
alias-removal and camelCase-removal passes per the parser options; when
exec-argv extraction is enabled, extract and merge with the parsed
`NODE_DEBUG_OPTION` environment override, clear the matched keys from argv,
and attach the exec-argv fields only when at least one key matched. -/
def buildContext (po : ParserOptions) (aliases : List (String × List String))
    (envArgv : Option JsObj) (rawArgv : List String) (argv0 : JsObj) : Context :=
  let argv := clearGlobalKeys argv0
  let argv := if po.removeAlias then removeAliasKeys aliases argv else argv
  let argv := if po.removeCamelCase then removeCamelKeys argv else argv
  if po.execArgv then
    let r := mergeExecArgv argv envArgv
    let argv := removeExecKeys r.execArgvObj argv
    if r.execArgvObj.isEmpty then
      { argv := argv, rawArgv := rawArgv,
        execArgvObj := none, debugOptions := none, debugPort := none }
    else
      { argv := argv, rawArgv := rawArgv,
        execArgvObj := some r.execArgvObj, debugOptions := some r.debugOptions,
        debugPort := some r.debugPort }
  else
    { argv := argv, rawArgv := rawArgv,
      execArgvObj := none, debugOptions := none, debugPort := none }

/-!
Claims about registration and dispatch.
-/

/-- C1: when the first positional token names a registered command (and the
version short-circuit is not taken), dispatch removes exactly one occurrence
of that token — the first — from a copy of the raw vector, constructs the
subcommand's dispatcher on the reduced vector (the `delegate` action), and
never reaches the parent's own `run`. -/
theorem dispatch_delegates_to_subcommand
    (commands : Registry) (rawArgv parsedPos : List String)
    (parsedVersion hasVersion autoCompletions : Bool)
    (name : String) (cmd : Nat)
    (hpos : parsedPos.head? = some name)
    (hreg : alGet commands name = some cmd)
    (hver : (parsedVersion && hasVersion) = false)
    (hmem : name ∈ rawArgv) :
    dispatchStep commands rawArgv parsedPos parsedVersion hasVersion autoCompletions
      = .delegate cmd (rawArgv.erase name) ∧
    (∃ l1 l2, name ∉ l1 ∧ rawArgv = l1 ++ name :: l2 ∧ rawArgv.erase name = l1 ++ l2) ∧
    (rawArgv.erase name).length + 1 = rawArgv.length ∧
    dispatchStep commands rawArgv parsedPos parsedVersion hasVersion autoCompletions
      ≠ .runSelf := by
  have hd : dispatchStep commands rawArgv parsedPos parsedVersion hasVersion autoCompletions
      = .delegate cmd (rawArgv.erase name) := by
    simp [dispatchStep, hver, hpos, hreg, removeCommandToken_eq_erase hmem]
  refine ⟨hd, List.exists_erase_eq hmem, ?_, ?_⟩
  · have hlen := List.length_erase_of_mem hmem
    have hpos' : 0 < rawArgv.length := List.length_pos_of_mem hmem
    omega
  · rw [hd]
    simp

/-- Witness for C1: the spec's own scenario, vector `["deploy", "--env=prod"]`
with `deploy` registered. -/
theorem dispatch_delegates_to_subcommand_witness :
    (["deploy", "--env=prod"].erase "deploy" = ["--env=prod"]) ∧
    (dispatchStep [("deploy", 1)] ["deploy", "--env=prod"] ["deploy"] false true false
        = .delegate 1 (["deploy", "--env=prod"].erase "deploy") ∧
      (∃ l1 l2, "deploy" ∉ l1 ∧ ["deploy", "--env=prod"] = l1 ++ "deploy" :: l2 ∧
        ["deploy", "--env=prod"].erase "deploy" = l1 ++ l2) ∧
      (["deploy", "--env=prod"].erase "deploy").length + 1
        = (["deploy", "--env=prod"] : List String).length ∧
      dispatchStep [("deploy", 1)] ["deploy", "--env=prod"] ["deploy"] false true false
        ≠ .runSelf) :=
  ⟨by decide,
    dispatch_delegates_to_subcommand [("deploy", 1)] ["deploy", "--env=prod"] ["deploy"]
      false true false "deploy" 1 rfl (by decide) (by decide) (by decide)⟩

/-- C9: aliasing an unregistered name fails with the missing-command
assertion; after the canonical name is registered, aliasing succeeds, the
alias maps to the same command node, and dispatch with the alias as first
token delegates to the same node with the same reduced vector as dispatch
with the canonical name. -/
theorem alias_requires_target_then_behaves_identically
    (reg : Registry) (a n : String) (cmd : Nat) (rest : List String)
    (pv hv ac : Bool) (hne : a ≠ "") (hpv : (pv && hv) = false) :
    (alGet reg n = none → aliasCmd reg a n = .error (.missingCommand n)) ∧
    (alGet reg n = some cmd →
      aliasCmd reg a n = .ok (alSet reg a cmd) ∧
      alGet (alSet reg a cmd) a = some cmd ∧
      alGet (alSet reg a cmd) n = some cmd ∧
      dispatchStep (alSet reg a cmd) (a :: rest) [a] pv hv ac = .delegate cmd rest ∧
      dispatchStep (alSet reg a cmd) (n :: rest) [n] pv hv ac = .delegate cmd rest) := by
  constructor
  · intro hnone
    simp [aliasCmd, hne, hnone]
  · intro hsome
    have hget : ∀ k, alGet (alSet reg a cmd) k = if k = a then some cmd else alGet reg k :=
      fun k => alGet_alSet reg a k cmd
    have ha : alGet (alSet reg a cmd) a = some cmd := by simp [hget]
    have hn : alGet (alSet reg a cmd) n = some cmd := by
      rw [hget]
      by_cases hna : n = a <;> simp [hna, hsome]
    refine ⟨by simp [aliasCmd, hne, hsome], ha, hn, ?_, ?_⟩
    · simp [dispatchStep, hpv, ha, removeCommandToken, jsIndexOfAux]
    · simp [dispatchStep, hpv, hn, removeCommandToken, jsIndexOfAux]

/-- Witness for C9: aliasing `d` before `deploy` is registered fails;
after registering, dispatch via `d` and via `deploy` delegate identically. -/
theorem alias_requires_target_witness :
    ("d" ≠ "" ∧ (false && true) = false) ∧
    ((alGet ([] : Registry) "deploy" = none →
        aliasCmd [] "d" "deploy" = .error (.missingCommand "deploy")) ∧
      (alGet [("deploy", 7)] "deploy" = some 7 →
        aliasCmd [("deploy", 7)] "d" "deploy" = .ok (alSet [("deploy", 7)] "d" 7) ∧
        alGet (alSet [("deploy", 7)] "d" 7) "d" = some 7 ∧
        alGet (alSet [("deploy", 7)] "d" 7) "deploy" = some 7 ∧
        dispatchStep (alSet [("deploy", 7)] "d" 7) ["d", "--x"] ["d"] false true false
          = .delegate 7 ["--x"] ∧
        dispatchStep (alSet [("deploy", 7)] "d" 7) ["deploy", "--x"] ["deploy"] false true false
          = .delegate 7 ["--x"])) :=
  ⟨⟨by decide, by decide⟩, by
    constructor
    · exact (alias_requires_target_then_behaves_identically [] "d" "deploy" 7 ["--x"]
        false true false (by decide) (by decide)).1
    · exact (alias_requires_target_then_behaves_identically [("deploy", 7)] "d" "deploy" 7
        ["--x"] false true false (by decide) (by decide)).2⟩

/-- Counterexample for C7: a second `add` under an already-registered name is
accepted and silently replaces the node — there is no duplicate-registration
rejection in `add`. -/
theorem add_duplicate_not_rejected :
    addCmd [("foo", 1)] "foo" 2 none = .ok [("foo", 2)] ∧
    alGet [("foo", 2)] "foo" = some 2 := by
  exact ⟨by simp [addCmd, alSet], by simp [alGet]⟩

/-- C7 (amended): a name maps to exactly one node via registry lookup, but a
second registration under an already-registered name is not rejected: `add`
silently replaces the previous node with the new target, leaving all other
names untouched. -/
theorem add_existing_name_silently_replaces
    (reg : Registry) (name : String) (target : Nat) (hname : name ≠ "") :
    addCmd reg name target none = .ok (alSet reg name target) ∧
    alGet (alSet reg name target) name = some target ∧
    (∀ k, k ≠ name → alGet (alSet reg name target) k = alGet reg k) := by
  refine ⟨by simp [addCmd, hname], by simp [alGet_alSet], fun k hk => ?_⟩
  rw [alGet_alSet]
  simp [hk]

/-- Witness for C7 (amended): re-registering `foo` over an existing entry. -/
theorem add_existing_name_silently_replaces_witness :
    ("foo" ≠ "") ∧
    (addCmd [("foo", 1)] "foo" 2 none = .ok (alSet [("foo", 1)] "foo" 2) ∧
      alGet (alSet [("foo", 1)] "foo" 2) "foo" = some 2 ∧
      (∀ k, k ≠ "foo" → alGet (alSet [("foo", 1)] "foo" 2) k = alGet [("foo", 1)] k)) :=
  ⟨by decide, add_existing_name_silently_replaces [("foo", 1)] "foo" 2 (by decide)⟩

/-- Counterexample for C8: `start()` splices `this.rawArgv` itself when the
completion marker is present, so the node's rawArgv no longer equals the
sequence captured at construction. -/
theorem start_mutates_rawArgv_in_place :
    startCompletionRewrite ["--get-yargs-completions", "my-git", "remote"]
      = ["--AUTO_COMPLETIONS=--get-yargs-completions,my-git,remote", "remote"] ∧
    startCompletionRewrite ["--get-yargs-completions", "my-git", "remote"]
      ≠ ["--get-yargs-completions", "my-git", "remote"] := by
  decide

/-- C8 (amended): dispatch splices only a copy of the raw vector, but `start`
rewrites rawArgv in place when `--get-yargs-completions` is present; when the
marker is absent, `start` leaves the node's rawArgv exactly as captured. -/
theorem start_preserves_rawArgv_without_marker
    (l : List String) (h : "--get-yargs-completions" ∉ l) :
    startCompletionRewrite l = l := by
  simp [startCompletionRewrite, jsIndexOfAux_eq_none_of_not_mem h]

/-- Witness for C8 (amended): an ordinary vector is left untouched. -/
theorem start_preserves_rawArgv_without_marker_witness :
    ("--get-yargs-completions" ∉ ["build", "--env=prod"]) ∧
    startCompletionRewrite ["build", "--env=prod"] = ["build", "--env=prod"] :=
  ⟨by decide, start_preserves_rawArgv_without_marker ["build", "--env=prod"] (by decide)⟩

/-!
Claims about the process supervisor.
-/

theorem forkOnExit_childs (st : SupState) (pid : Nat) (m : String)
    (args : List String) (code : Int) :
    (forkOnExit st pid m args code).1 = { st with childs := st.childs.filter (· ≠ pid) } := by
  unfold forkOnExit
  split <;> rfl

theorem spawnOnExit_childs (st : SupState) (pid : Nat) (c : String)
    (args : List String) (code : Int) :
    (spawnOnExit st pid c args code).1 = { st with childs := st.childs.filter (· ≠ pid) } := by
  unfold spawnOnExit
  split <;> rfl

/-- C3: a fork or spawn launch settles exactly once and never throws
synchronously (the settlement is the sole outcome of the exit listener in
the model): exit code 0 resolves; a nonzero code `c` rejects with an error
carrying `c` (in `err.code` for fork, in the message text for spawn); and
immediately after the exit notification the registry holds no handle for
that child. -/
theorem fork_spawn_settlements
    (st : SupState) (pid : Nat) (m c : String) (args : List String) (code : Int) :
    (forkOnExit st pid m args 0).2 = .ok () ∧
    (spawnOnExit st pid c args 0).2 = .ok () ∧
    (code ≠ 0 → ∃ e : ForkErr, (forkOnExit st pid m args code).2 = .error e ∧ e.code = code) ∧
    (code ≠ 0 → ∃ e : SpawnErr, (spawnOnExit st pid c args code).2 = .error e ∧
      ∃ s, e.message = s ++ toString code) ∧
    pid ∉ (forkOnExit st pid m args code).1.childs ∧
    pid ∉ (spawnOnExit st pid c args code).1.childs := by
  refine ⟨by simp [forkOnExit], by simp [spawnOnExit], ?_, ?_, ?_, ?_⟩
  · intro h
    exact ⟨⟨m ++ " " ++ String.intercalate "," args ++ " exit with code " ++ toString code,
      code⟩, by simp [forkOnExit, h], rfl⟩
  · intro h
    exact ⟨⟨"spawn " ++ c ++ " " ++ String.intercalate " " args ++ " fail, exit code: "
        ++ toString code⟩, by simp [spawnOnExit, h],
      "spawn " ++ c ++ " " ++ String.intercalate " " args ++ " fail, exit code: ", rfl⟩
  · rw [forkOnExit_childs]
    simp
  · rw [spawnOnExit_childs]
    simp

/-- Witness for C3: a child with pid 5 exiting with code 2 from a state that
still registers it. -/
theorem fork_spawn_settlements_witness :
    ((2 : Int) ≠ 0) ∧
    ((forkOnExit { initSup with childs := [5] } 5 "mod.js" [] 0).2 = .ok () ∧
      (spawnOnExit { initSup with childs := [5] } 5 "npm" [] 0).2 = .ok () ∧
      ((2 : Int) ≠ 0 → ∃ e : ForkErr,
        (forkOnExit { initSup with childs := [5] } 5 "mod.js" [] 2).2 = .error e ∧
        e.code = 2) ∧
      ((2 : Int) ≠ 0 → ∃ e : SpawnErr,
        (spawnOnExit { initSup with childs := [5] } 5 "npm" [] 2).2 = .error e ∧
        ∃ s, e.message = s ++ toString (2 : Int)) ∧
      5 ∉ (forkOnExit { initSup with childs := [5] } 5 "mod.js" [] 2).1.childs ∧
      5 ∉ (spawnOnExit { initSup with childs := [5] } 5 "npm" [] 2).1.childs) :=
  ⟨by decide, fork_spawn_settlements { initSup with childs := [5] } 5 "mod.js" "npm" [] 2⟩

/-- C5: the registry holds no handle for a child that has reported exit —
both exit listeners delete the handle (exactly once, as the single removal
in the listener), before and independently of the success/failure branch,
and leave every other handle registered. -/
theorem registry_clears_exited_handle
    (st : SupState) (pid : Nat) (m c : String) (args : List String) (code : Int) :
    pid ∉ (forkOnExit st pid m args code).1.childs ∧
    pid ∉ (spawnOnExit st pid c args code).1.childs ∧
    (∀ q, q ≠ pid →
      (q ∈ (forkOnExit st pid m args code).1.childs ↔ q ∈ st.childs)) ∧
    (∀ q, q ≠ pid →
      (q ∈ (spawnOnExit st pid c args code).1.childs ↔ q ∈ st.childs)) ∧
    (forkOnExit st pid m args code).1 = (forkOnExit st pid m args 0).1 ∧
    (spawnOnExit st pid c args code).1 = (spawnOnExit st pid c args 0).1 := by
  refine ⟨?_, ?_, ?_, ?_, ?_, ?_⟩
  · rw [forkOnExit_childs]
    simp
  · rw [spawnOnExit_childs]
    simp
  · intro q hq
    rw [forkOnExit_childs]
    simp [List.mem_filter, hq]
  · intro q hq
    rw [spawnOnExit_childs]
    simp [List.mem_filter, hq]
  · rw [forkOnExit_childs, forkOnExit_childs]
  · rw [spawnOnExit_childs, spawnOnExit_childs]

/-- Witness for C5: a registry holding pids 5 and 9; after pid 5 exits with
code 2, only pid 9 remains. -/
theorem registry_clears_exited_handle_witness :
    ((5 : Nat) ≠ 9) ∧
    (5 ∉ (forkOnExit { initSup with childs := [5, 9] } 5 "mod.js" [] 2).1.childs ∧
      5 ∉ (spawnOnExit { initSup with childs := [5, 9] } 5 "npm" [] 2).1.childs ∧
      (∀ q, q ≠ 5 →
        (q ∈ (forkOnExit { initSup with childs := [5, 9] } 5 "mod.js" [] 2).1.childs
          ↔ q ∈ ({ initSup with childs := [5, 9] } : SupState).childs)) ∧
      (∀ q, q ≠ 5 →
        (q ∈ (spawnOnExit { initSup with childs := [5, 9] } 5 "npm" [] 2).1.childs
          ↔ q ∈ ({ initSup with childs := [5, 9] } : SupState).childs)) ∧
      (forkOnExit { initSup with childs := [5, 9] } 5 "mod.js" [] 2).1
        = (forkOnExit { initSup with childs := [5, 9] } 5 "mod.js" [] 0).1 ∧
      (spawnOnExit { initSup with childs := [5, 9] } 5 "npm" [] 2).1
        = (spawnOnExit { initSup with childs := [5, 9] } 5 "npm" [] 0).1) :=
  ⟨by decide, registry_clears_exited_handle { initSup with childs := [5, 9] } 5 "mod.js" "npm" [] 2⟩

theorem gracefull_hadHook (st : SupState) (pid : Nat) :
    (gracefull st pid).hadHook = true := by
  by_cases h : st.hadHook <;> simp [gracefull, h]

theorem gracefull_of_hadHook (st : SupState) (pid : Nat) (h : st.hadHook = true) :
    gracefull st pid = { st with childs := setAdd st.childs pid } := by
  simp [gracefull, h]

theorem foldl_gracefull_of_hadHook (l : List Nat) (st : SupState) (h : st.hadHook = true) :
    l.foldl gracefull st = { st with childs := l.foldl setAdd st.childs } := by
  induction l generalizing st with
  | nil => rfl
  | cons p t ih =>
    rw [List.foldl_cons, gracefull_of_hadHook st p h,
      ih { st with childs := setAdd st.childs p } h]
    rfl

theorem filter_eq_of_nodup {l : List Nat} {p : Nat} (hnd : l.Nodup) (hp : p ∈ l) :
    l.filter (fun q => q = p) = [p] := by
  induction l with
  | nil => simp at hp
  | cons a t ih =>
    rw [List.nodup_cons] at hnd
    rcases List.mem_cons.mp hp with rfl | hm
    · have hnil : t.filter (fun q => q = p) = [] := by
        rw [List.filter_eq_nil_iff]
        intro q hq
        simp only [decide_eq_true_eq]
        exact fun he => hnd.1 (he ▸ hq)
      simp [List.filter_cons, hnil]
    · have ha : ¬(a = p) := fun he => hnd.1 (he ▸ hm)
      simp [List.filter_cons, ha, ih hnd.2 hm]

theorem foldl_setAdd_eq_append (l c : List Nat) (h : (c ++ l).Nodup) :
    l.foldl setAdd c = c ++ l := by
  induction l generalizing c with
  | nil => simp
  | cons x xs ih =>
    have hx : x ∉ c := by
      rcases List.nodup_append.mp h with ⟨-, -, hdisj⟩
      exact fun hc => hdisj hc (List.mem_cons_self x xs)
    have hstep : setAdd c x = c ++ [x] := by simp [setAdd, hx]
    have hnd : ((c ++ [x]) ++ xs).Nodup := by
      rw [List.append_assoc]
      simpa using h
    rw [List.foldl_cons, hstep, ih _ hnd, List.append_assoc]
    rfl

/-- C4: launching children installs the signal and exit hooks exactly once,
lazily on the first launch; before any exit no child has been killed; on a
termination signal the parent records it and exits, and the parent's exit
hook forwards that signal to every still-registered child exactly once; a
second firing of the exit event delivers nothing further, and later launches
do not re-install the hooks. -/
theorem graceful_kills_each_child_exactly_once
    (pids : List Nat) (sig : String) (st st1 : SupState)
    (hnd : pids.Nodup) (hne : pids ≠ [])
    (hsig : sig ∈ ["SIGINT", "SIGQUIT", "SIGTERM"])
    (hst : st = pids.foldl gracefull initSup)
    (hst1 : st1 = onSignal st sig) :
    initSup.hadHook = false ∧
    st.hadHook = true ∧
    st.sigHandlersArmed = ["SIGINT", "SIGQUIT", "SIGTERM"] ∧
    st.childs = pids ∧
    st.killLog = [] ∧
    st1.killLog = pids.map (fun p => (p, some sig)) ∧
    (∀ p ∈ pids, st1.killLog.filter (fun e => e.1 = p) = [(p, some sig)]) ∧
    onExit st1 = st1 ∧
    (∀ q, (gracefull st q).sigHandlersArmed = st.sigHandlersArmed ∧
      (gracefull st q).exitHookArmed = st.exitHookArmed ∧
      (gracefull st q).hadHook = st.hadHook) := by
  obtain ⟨x, rest, rfl⟩ : ∃ x rest, pids = x :: rest := by
    cases pids with
    | nil => exact absurd rfl hne
    | cons a b => exact ⟨a, b, rfl⟩
  have h1 : gracefull initSup x =
      { childs := [x], hadHook := true, signal := none,
        sigHandlersArmed := ["SIGINT", "SIGQUIT", "SIGTERM"],
        exitHookArmed := true, killLog := [] } := by
    simp [gracefull, initSup, setAdd]
  have hchilds : rest.foldl setAdd [x] = x :: rest := by
    have := foldl_setAdd_eq_append rest [x] (by simpa using hnd)
    simpa using this
  have hstv : st =
      { childs := x :: rest, hadHook := true, signal := none,
        sigHandlersArmed := ["SIGINT", "SIGQUIT", "SIGTERM"],
        exitHookArmed := true, killLog := [] } := by
    rw [hst, List.foldl_cons, h1, foldl_gracefull_of_hadHook _ _ rfl]
    simp [hchilds]
  have hst1v : st1 =
      { childs := x :: rest, hadHook := true, signal := some sig,
        sigHandlersArmed := (["SIGINT", "SIGQUIT", "SIGTERM"].filter (· ≠ sig)),
        exitHookArmed := false,
        killLog := (x :: rest).map (fun p => (p, some sig)) } := by
    rw [hst1, hstv, onSignal]
    simp only [hsig, if_pos]
    rw [onExit]
    simp
  refine ⟨rfl, by rw [hstv], by rw [hstv], by rw [hstv], by rw [hstv],
    by rw [hst1v], ?_, ?_, ?_⟩
  · intro p hp
    rw [hst1v]
    show (((x :: rest).map (fun q => (q, some sig))).filter (fun e => e.1 = p))
      = [(p, some sig)]
    rw [List.filter_map]
    show (((x :: rest).filter (fun q => q = p)).map (fun q => (q, some sig)))
      = [(p, some sig)]
    rw [filter_eq_of_nodup hnd hp]
    rfl
  · rw [hst1v, onExit]
    simp
  · intro q
    simp [hstv, gracefull]

/-- Witness for C4: two registered children (pids 1 and 2) and a SIGTERM. -/
theorem graceful_kills_each_child_exactly_once_witness :
    (([1, 2] : List Nat).Nodup ∧ ([1, 2] : List Nat) ≠ [] ∧
      "SIGTERM" ∈ ["SIGINT", "SIGQUIT", "SIGTERM"]) ∧
    (initSup.hadHook = false ∧
      (([1, 2] : List Nat).foldl gracefull initSup).hadHook = true ∧
      (([1, 2] : List Nat).foldl gracefull initSup).sigHandlersArmed
        = ["SIGINT", "SIGQUIT", "SIGTERM"] ∧
      (([1, 2] : List Nat).foldl gracefull initSup).childs = [1, 2] ∧
      (([1, 2] : List Nat).foldl gracefull initSup).killLog = [] ∧
      (onSignal (([1, 2] : List Nat).foldl gracefull initSup) "SIGTERM").killLog
        = ([1, 2] : List Nat).map (fun p => (p, some "SIGTERM")) ∧
      (∀ p ∈ ([1, 2] : List Nat),
        (onSignal (([1, 2] : List Nat).foldl gracefull initSup) "SIGTERM").killLog.filter
          (fun e => e.1 = p) = [(p, some "SIGTERM")]) ∧
      onExit (onSignal (([1, 2] : List Nat).foldl gracefull initSup) "SIGTERM")
        = onSignal (([1, 2] : List Nat).foldl gracefull initSup) "SIGTERM" ∧
      (∀ q, (gracefull (([1, 2] : List Nat).foldl gracefull initSup) q).sigHandlersArmed
          = (([1, 2] : List Nat).foldl gracefull initSup).sigHandlersArmed ∧
        (gracefull (([1, 2] : List Nat).foldl gracefull initSup) q).exitHookArmed
          = (([1, 2] : List Nat).foldl gracefull initSup).exitHookArmed ∧
        (gracefull (([1, 2] : List Nat).foldl gracefull initSup) q).hadHook
          = (([1, 2] : List Nat).foldl gracefull initSup).hadHook)) :=
  ⟨⟨by decide, by decide, by decide⟩,
    graceful_kills_each_child_exactly_once [1, 2] "SIGTERM" _ _
      (by decide) (by decide) (by decide) rfl rfl⟩

/-!
Claims about the Execution Context derivation.
-/

theorem getProp_setProp_undef {a : JsObj} {k : String} (k' : String)
    (h : getProp a k = JsVal.undef) :
    getProp (setProp a k' JsVal.undef) k = JsVal.undef := by
  by_cases hk : k = k' <;> simp [getProp_setProp, hk, h]

theorem undef_removeAliasKeys (al : List (String × List String)) {a : JsObj} {k : String}
    (h : getProp a k = JsVal.undef) : getProp (removeAliasKeys al a) k = JsVal.undef := by
  unfold removeAliasKeys
  refine @foldl_preserve _ _ _ (fun b => getProp b k = JsVal.undef) al a
    (fun b kv _ hb => ?_) h
  exact @foldl_preserve _ _ _ (fun b => getProp b k = JsVal.undef) kv.2 b
    (fun b' item _ hb' => getProp_setProp_undef item hb') hb

theorem undef_removeCamelKeys {a : JsObj} {k : String}
    (h : getProp a k = JsVal.undef) : getProp (removeCamelKeys a) k = JsVal.undef := by
  unfold removeCamelKeys
  refine @foldl_preserve _ _ _ (fun b => getProp b k = JsVal.undef) (alKeys a) a
    (fun b k' _ hb => ?_) h
  by_cases hc : k'.contains '-'
  · simpa [hc] using getProp_setProp_undef (camelize k') hb
  · simpa [hc] using hb

theorem undef_removeExecKeys (eobj : JsObj) {a : JsObj} {k : String}
    (h : getProp a k = JsVal.undef) : getProp (removeExecKeys eobj a) k = JsVal.undef := by
  unfold removeExecKeys
  refine @foldl_preserve _ _ _ (fun b => getProp b k = JsVal.undef) (alKeys eobj) a
    (fun b k' _ hb => ?_) h
  exact getProp_setProp_undef (camelize k') (getProp_setProp_undef k' hb)

theorem getProp_ite_context_argv (c : Prop) [Decidable c] (r1 r2 : Context) (k : String)
    (h1 : getProp r1.argv k = JsVal.undef) (h2 : getProp r2.argv k = JsVal.undef) :
    getProp (if c then r1 else r2).argv k = JsVal.undef := by
  split
  · exact h1
  · exact h2

theorem buildContext_argv_undef (po : ParserOptions) (aliases : List (String × List String))
    (envArgv : Option JsObj) (rawArgv : List String) (argv0 : JsObj) (k : String)
    (h0 : getProp (clearGlobalKeys argv0) k = JsVal.undef) :
    getProp (buildContext po aliases envArgv rawArgv argv0).argv k = JsVal.undef := by
  have hB : getProp (removeAliasKeys aliases (clearGlobalKeys argv0)) k = JsVal.undef :=
    undef_removeAliasKeys aliases h0
  rcases po with ⟨ea, ra, rc⟩
  cases ea <;> cases ra <;> cases rc
  · exact h0
  · exact undef_removeCamelKeys h0
  · exact hB
  · exact undef_removeCamelKeys hB
  · exact getProp_ite_context_argv _ _ _ _
      (undef_removeExecKeys _ h0) (undef_removeExecKeys _ h0)
  · exact getProp_ite_context_argv _ _ _ _
      (undef_removeExecKeys _ (undef_removeCamelKeys h0))
      (undef_removeExecKeys _ (undef_removeCamelKeys h0))
  · exact getProp_ite_context_argv _ _ _ _
      (undef_removeExecKeys _ hB) (undef_removeExecKeys _ hB)
  · exact getProp_ite_context_argv _ _ _ _
      (undef_removeExecKeys _ (undef_removeCamelKeys hB))
      (undef_removeExecKeys _ (undef_removeCamelKeys hB))

/-- C2: the derived Execution Context's argv never has `help`, `h`, `version`
or `v` as defined keys — the `context` getter assigns `undefined` to all four
unconditionally, and every later pass writes only `undefined` values — for
every input argv, alias table, environment override and parser options. -/
theorem context_clears_global_flag_keys (po : ParserOptions)
    (aliases : List (String × List String)) (envArgv : Option JsObj)
    (rawArgv : List String) (argv0 : JsObj) :
    getProp (buildContext po aliases envArgv rawArgv argv0).argv "help" = JsVal.undef ∧
    getProp (buildContext po aliases envArgv rawArgv argv0).argv "h" = JsVal.undef ∧
    getProp (buildContext po aliases envArgv rawArgv argv0).argv "version" = JsVal.undef ∧
    getProp (buildContext po aliases envArgv rawArgv argv0).argv "v" = JsVal.undef :=
  ⟨buildContext_argv_undef po aliases envArgv rawArgv argv0 "help"
      (by simp [clearGlobalKeys, getProp_setProp]),
    buildContext_argv_undef po aliases envArgv rawArgv argv0 "h"
      (by simp [clearGlobalKeys, getProp_setProp]),
    buildContext_argv_undef po aliases envArgv rawArgv argv0 "version"
      (by simp [clearGlobalKeys, getProp_setProp]),
    buildContext_argv_undef po aliases envArgv rawArgv argv0 "v"
      (by simp [clearGlobalKeys, getProp_setProp])⟩

theorem extractStep_debugPort_none (acc : ExecArgvResult) (p : String × JsVal) :
    (extractStep acc p).debugPort = none ↔
      (acc.debugPort = none ∧
        ¬(debugKeys.contains p.1 = true ∧ ∃ n, p.2 = JsVal.num n)) := by
  rcases p with ⟨k, v⟩
  cases v with
  | undef => simp [extractStep]
  | bool b =>
    by_cases h2 : k ∈ debugKeys
    · simp [extractStep, h2]
    · by_cases h3 : isHarmonyKey k <;> simp [extractStep, h2, h3]
  | num n =>
    by_cases h2 : k ∈ debugKeys
    · simp [extractStep, h2]
    · by_cases h3 : isHarmonyKey k <;> simp [extractStep, h2, h3]
  | str s =>
    by_cases h2 : k ∈ debugKeys
    · simp [extractStep, h2]
    · by_cases h3 : isHarmonyKey k <;> simp [extractStep, h2, h3]

theorem extract_foldl_port_none (l : JsObj) :
    ∀ acc : ExecArgvResult,
      ((l.foldl extractStep acc).debugPort = none ↔
        (acc.debugPort = none ∧
          ∀ p ∈ l, ¬(debugKeys.contains p.1 = true ∧ ∃ n, p.2 = JsVal.num n))) := by
  induction l with
  | nil => intro acc; simp
  | cons p t ih =>
    intro acc
    rw [List.foldl_cons, ih, extractStep_debugPort_none]
    constructor
    · rintro ⟨⟨h1, h2⟩, h3⟩
      refine ⟨h1, fun q hq => ?_⟩
      rcases List.mem_cons.mp hq with rfl | hm
      · exact h2
      · exact h3 q hm
    · rintro ⟨h1, h2⟩
      exact ⟨⟨h1, h2 p (List.mem_cons_self p t)⟩,
        fun q hq => h2 q (List.mem_cons_of_mem p hq)⟩

theorem extract_hasKey_imp_source (argv : JsObj) (k : String) :
    (alHas (extractExecArgv argv).debugOptions k = true →
      ∃ v, (k, v) ∈ argv ∧ v ≠ JsVal.undef) ∧
    (alHas (extractExecArgv argv).execArgvObj k = true →
      ∃ v, (k, v) ∈ argv ∧ v ≠ JsVal.undef) := by
  unfold extractExecArgv
  refine @foldl_preserve _ _ extractStep
    (fun acc => (alHas acc.debugOptions k = true → ∃ v, (k, v) ∈ argv ∧ v ≠ JsVal.undef) ∧
      (alHas acc.execArgvObj k = true → ∃ v, (k, v) ∈ argv ∧ v ≠ JsVal.undef))
    argv ⟨none, [], []⟩ (fun b p hp hb => ?_) ⟨by simp [alHas, alGet], by simp [alHas, alGet]⟩
  have hmem : ∀ he : k = p.1, (k, p.2) ∈ argv := fun he => by rw [he]; exact hp
  constructor
  · intro hh
    unfold extractStep at hh
    by_cases h1 : p.2 = JsVal.undef
    · rw [if_pos h1] at hh
      exact hb.1 hh
    · rw [if_neg h1] at hh
      by_cases h2 : debugKeys.contains p.1
      · rw [if_pos h2] at hh
        have hh' : (k == p.1 || alHas b.debugOptions k) = true := by
          rw [← alHas_alSet]
          exact hh
        cases Bool.or_eq_true_iff.mp hh' with
        | inl he => exact ⟨p.2, hmem (by simpa using he), h1⟩
        | inr hr => exact hb.1 hr
      · rw [if_neg h2] at hh
        by_cases h3 : isHarmonyKey p.1
        · rw [if_pos h3] at hh
          exact hb.1 hh
        · rw [if_neg h3] at hh
          exact hb.1 hh
  · intro hh
    unfold extractStep at hh
    by_cases h1 : p.2 = JsVal.undef
    · rw [if_pos h1] at hh
      exact hb.2 hh
    · rw [if_neg h1] at hh
      by_cases h2 : debugKeys.contains p.1
      · rw [if_pos h2] at hh
        have hh' : (k == p.1 || alHas b.execArgvObj k) = true := by
          rw [← alHas_alSet]
          exact hh
        cases Bool.or_eq_true_iff.mp hh' with
        | inl he => exact ⟨p.2, hmem (by simpa using he), h1⟩
        | inr hr => exact hb.2 hr
      · rw [if_neg h2] at hh
        by_cases h3 : isHarmonyKey p.1
        · rw [if_pos h3] at hh
          have hh' : (k == p.1 || alHas b.execArgvObj k) = true := by
            rw [← alHas_alSet]
            exact hh
          cases Bool.or_eq_true_iff.mp hh' with
          | inl he => exact ⟨p.2, hmem (by simpa using he), h1⟩
          | inr hr => exact hb.2 hr
        · rw [if_neg h3] at hh
          exact hb.2 hh

theorem extract_mem_family_hasKey (argv : JsObj) (p : String × JsVal)
    (hp : p ∈ argv) (hv : p.2 ≠ JsVal.undef) (hf : debugKeys.contains p.1 = true) :
    alHas (extractExecArgv argv).debugOptions p.1 = true ∧
    alHas (extractExecArgv argv).execArgvObj p.1 = true := by
  obtain ⟨s, t, rfl⟩ := List.append_of_mem hp
  unfold extractExecArgv
  rw [List.foldl_append, List.foldl_cons]
  refine @foldl_preserve _ _ extractStep
    (fun acc => alHas acc.debugOptions p.1 = true ∧ alHas acc.execArgvObj p.1 = true)
    t _ (fun b q hq hb => ?_) ?_
  · constructor
    · unfold extractStep
      by_cases h1 : q.2 = JsVal.undef
      · rw [if_pos h1]
        exact hb.1
      · rw [if_neg h1]
        by_cases h2 : debugKeys.contains q.1
        · rw [if_pos h2]
          show alHas (alSet b.debugOptions q.1 q.2) p.1 = true
          rw [alHas_alSet, hb.1]
          simp
        · rw [if_neg h2]
          by_cases h3 : isHarmonyKey q.1
          · rw [if_pos h3]
            exact hb.1
          · rw [if_neg h3]
            exact hb.1
    · unfold extractStep
      by_cases h1 : q.2 = JsVal.undef
      · rw [if_pos h1]
        exact hb.2
      · rw [if_neg h1]
        by_cases h2 : debugKeys.contains q.1
        · rw [if_pos h2]
          show alHas (alSet b.execArgvObj q.1 q.2) p.1 = true
          rw [alHas_alSet, hb.2]
          simp
        · rw [if_neg h2]
          by_cases h3 : isHarmonyKey q.1
          · rw [if_pos h3]
            show alHas (alSet b.execArgvObj q.1 q.2) p.1 = true
            rw [alHas_alSet, hb.2]
            simp
          · rw [if_neg h3]
            exact hb.2
  · show alHas (extractStep (s.foldl extractStep ⟨none, [], []⟩) p).debugOptions p.1 = true ∧
      alHas (extractStep (s.foldl extractStep ⟨none, [], []⟩) p).execArgvObj p.1 = true
    unfold extractStep
    rw [if_neg hv, if_pos hf]
    constructor
    · show alHas (alSet (s.foldl extractStep ⟨none, [], []⟩).debugOptions p.1 p.2) p.1 = true
      rw [alHas_alSet]
      simp
    · show alHas (alSet (s.foldl extractStep ⟨none, [], []⟩).execArgvObj p.1 p.2) p.1 = true
      rw [alHas_alSet]
      simp

theorem mem_of_getProp {argv : JsObj} {k : String} {v : JsVal}
    (h : getProp argv k = v) (hv : v ≠ JsVal.undef) : (k, v) ∈ argv := by
  unfold getProp at h
  cases hg : alGet argv k with
  | none => rw [hg] at h; exact absurd h.symm hv
  | some w =>
    rw [hg] at h
    simp only [Option.getD_some] at h
    exact h ▸ mem_of_alGet_eq_some hg

/-- C10: exec-argv extraction skips keys whose value is `undefined` (they
reach neither `debugOptions` nor `execArgvObj`); `debugPort` is set iff some
debug/inspect-family key carries a numeric value; and a boolean-valued
family flag (a bare `--inspect`) lands in `debugOptions` and `execArgvObj`
without setting the port by itself. -/
theorem extract_skips_undefined_and_port_iff_numeric (argv : JsObj)
    (hnd : (alKeys argv).Nodup) :
    (∀ k, getProp argv k = JsVal.undef →
      alHas (extractExecArgv argv).debugOptions k = false ∧
      alHas (extractExecArgv argv).execArgvObj k = false) ∧
    (¬ (extractExecArgv argv).debugPort = none ↔
      ∃ k n, k ∈ debugKeys ∧ getProp argv k = JsVal.num n) ∧
    (∀ k, k ∈ debugKeys → getProp argv k = JsVal.bool true →
      alHas (extractExecArgv argv).debugOptions k = true ∧
      alHas (extractExecArgv argv).execArgvObj k = true) := by
  refine ⟨?_, ?_, ?_⟩
  · intro k hk
    have hsrc := extract_hasKey_imp_source argv k
    constructor
    · rw [Bool.eq_false_iff]
      intro hb
      obtain ⟨v, hm, hv⟩ := hsrc.1 hb
      have : getProp argv k = v := by
        rw [getProp, alGet_of_mem_nodup hnd hm]
        rfl
      exact hv (by rw [← this, hk])
    · rw [Bool.eq_false_iff]
      intro hb
      obtain ⟨v, hm, hv⟩ := hsrc.2 hb
      have : getProp argv k = v := by
        rw [getProp, alGet_of_mem_nodup hnd hm]
        rfl
      exact hv (by rw [← this, hk])
  · have hchar := extract_foldl_port_none argv ⟨none, [], []⟩
    constructor
    · intro hne
      have hnall : ¬ (∀ p ∈ argv,
          ¬(debugKeys.contains p.1 = true ∧ ∃ n, p.2 = JsVal.num n)) := by
        intro hall
        exact hne (hchar.mpr ⟨rfl, hall⟩)
      push_neg at hnall
      obtain ⟨p, hp, hc, n, hn⟩ := hnall
      have hmem : (p.1, JsVal.num n) ∈ argv := by
        rw [← hn]
        exact hp
      refine ⟨p.1, n, by simpa using hc, ?_⟩
      rw [getProp, alGet_of_mem_nodup hnd hmem]
      rfl
    · rintro ⟨k, n, hk, hg⟩ h0
      have hmem : (k, JsVal.num n) ∈ argv := mem_of_getProp hg (by simp)
      have := (hchar.mp h0).2 (k, JsVal.num n) hmem
      exact this ⟨by simpa using hk, n, rfl⟩
  · intro k hk hg
    have hmem : (k, JsVal.bool true) ∈ argv := mem_of_getProp hg (by simp)
    exact extract_mem_family_hasKey argv (k, JsVal.bool true) hmem (by simp)
      (by simpa using hk)

/-- Witness for C10: argv with a bare boolean `inspect`, a numeric
`debug-port`, and an explicitly `undefined` `bar`. -/
theorem extract_skips_undefined_and_port_iff_numeric_witness :
    ((alKeys [("inspect", JsVal.bool true), ("debug-port", JsVal.num 9229),
        ("bar", JsVal.undef)]).Nodup) ∧
    ((∀ k, getProp [("inspect", JsVal.bool true), ("debug-port", JsVal.num 9229),
          ("bar", JsVal.undef)] k = JsVal.undef →
        alHas (extractExecArgv [("inspect", JsVal.bool true), ("debug-port", JsVal.num 9229),
          ("bar", JsVal.undef)]).debugOptions k = false ∧
        alHas (extractExecArgv [("inspect", JsVal.bool true), ("debug-port", JsVal.num 9229),
          ("bar", JsVal.undef)]).execArgvObj k = false) ∧
      (¬ (extractExecArgv [("inspect", JsVal.bool true), ("debug-port", JsVal.num 9229),
          ("bar", JsVal.undef)]).debugPort = none ↔
        ∃ k n, k ∈ debugKeys ∧ getProp [("inspect", JsVal.bool true),
          ("debug-port", JsVal.num 9229), ("bar", JsVal.undef)] k = JsVal.num n) ∧
      (∀ k, k ∈ debugKeys → getProp [("inspect", JsVal.bool true),
          ("debug-port", JsVal.num 9229), ("bar", JsVal.undef)] k = JsVal.bool true →
        alHas (extractExecArgv [("inspect", JsVal.bool true), ("debug-port", JsVal.num 9229),
          ("bar", JsVal.undef)]).debugOptions k = true ∧
        alHas (extractExecArgv [("inspect", JsVal.bool true), ("debug-port", JsVal.num 9229),
          ("bar", JsVal.undef)]).execArgvObj k = true)) :=
  ⟨by decide,
    extract_skips_undefined_and_port_iff_numeric
      [("inspect", JsVal.bool true), ("debug-port", JsVal.num 9229), ("bar", JsVal.undef)]
      (by decide)⟩

theorem alGet_objAssign (t s : JsObj) (k : String) (hnd : (alKeys s).Nodup) :
    alGet (objAssign t s) k = if alHas s k then alGet s k else alGet t k := by
  induction s generalizing t with
  | nil => simp [objAssign, alHas, alGet]
  | cons p s' ih =>
    simp only [alKeys, List.map_cons, List.nodup_cons] at hnd
    have step : objAssign t (p :: s') = objAssign (alSet t p.1 p.2) s' := rfl
    rw [step, ih _ hnd.2]
    by_cases hs : alHas s' k
    · have hks' : k ∈ alKeys s' := (alHas_iff_mem_alKeys s' k).mp hs
      have hpk : ¬ p.1 = k := fun he => hnd.1 (he ▸ hks')
      have hs2 : (alGet s' k).isSome = true := hs
      simp [alHas, alGet, hpk, hs2]
    · rw [if_neg hs, alGet_alSet]
      by_cases hk : k = p.1
      · simp [alHas, alGet, hk]
      · have hpk : ¬ p.1 = k := fun he => hk he.symm
        have hs' : ¬ ((alGet s' k).isSome = true) := hs
        simp [alHas, alGet, hk, hpk, hs']

theorem extract_nodup_keys (argv : JsObj) :
    (alKeys (extractExecArgv argv).debugOptions).Nodup ∧
    (alKeys (extractExecArgv argv).execArgvObj).Nodup := by
  unfold extractExecArgv
  refine @foldl_preserve _ _ extractStep
    (fun acc => (alKeys acc.debugOptions).Nodup ∧ (alKeys acc.execArgvObj).Nodup)
    argv ⟨none, [], []⟩ (fun b p hp hb => ?_) ⟨by simp [alKeys], by simp [alKeys]⟩
  unfold extractStep
  by_cases h1 : p.2 = JsVal.undef
  · rw [if_pos h1]
    exact hb
  · rw [if_neg h1]
    by_cases h2 : debugKeys.contains p.1
    · rw [if_pos h2]
      exact ⟨nodup_alKeys_alSet _ _ _ hb.1, nodup_alKeys_alSet _ _ _ hb.2⟩
    · rw [if_neg h2]
      by_cases h3 : isHarmonyKey p.1
      · rw [if_pos h3]
        exact ⟨hb.1, nodup_alKeys_alSet _ _ _ hb.2⟩
      · rw [if_neg h3]
        exact hb

/-- Counterexample for C6: with argv setting `debug-port=5858` and the
environment override setting `inspect-port=9229`, the merged `debugPort` is
the environment's `9229` — the environment overrides even though argv did
set a port (`debugPort = obj.debugPort || debugPort` prefers the
environment side), contradicting the claimed exception. -/
theorem debugPort_env_wins_even_when_argv_set :
    (extractExecArgv [("debug-port", JsVal.num 5858)]).debugPort = some 5858 ∧
    (mergeExecArgv [("debug-port", JsVal.num 5858)]
        (some [("inspect-port", JsVal.num 9229)])).debugPort = some 9229 ∧
    some (9229 : Int) ≠ some (5858 : Int) := by
  refine ⟨by decide, by decide, by decide⟩

/-- C6 (amended): when both argv and the environment override define the
same exec-argv key, the environment wins for every key of `execArgvObj` and
`debugOptions` (the environment extraction is `Object.assign`-merged last),
and the environment also wins for `debugPort` whenever it defines a truthy
(nonzero) port; argv's port survives only when the environment defines none
(a zero port, being falsy, also falls back to argv's). -/
theorem mergeExecArgv_env_wins (a e : JsObj) :
    (∀ k, alHas (extractExecArgv e).execArgvObj k = true →
      alGet (mergeExecArgv a (some e)).execArgvObj k
        = alGet (extractExecArgv e).execArgvObj k) ∧
    (∀ k, alHas (extractExecArgv e).debugOptions k = true →
      alGet (mergeExecArgv a (some e)).debugOptions k
        = alGet (extractExecArgv e).debugOptions k) ∧
    (∀ n, (extractExecArgv e).debugPort = some n → n ≠ 0 →
      (mergeExecArgv a (some e)).debugPort = some n) ∧
    ((extractExecArgv e).debugPort = none →
      (mergeExecArgv a (some e)).debugPort = (extractExecArgv a).debugPort) := by
  refine ⟨?_, ?_, ?_, ?_⟩
  · intro k hk
    show alGet (objAssign (extractExecArgv a).execArgvObj (extractExecArgv e).execArgvObj) k
      = alGet (extractExecArgv e).execArgvObj k
    rw [alGet_objAssign _ _ _ (extract_nodup_keys e).2, if_pos hk]
  · intro k hk
    show alGet (objAssign (extractExecArgv a).debugOptions (extractExecArgv e).debugOptions) k
      = alGet (extractExecArgv e).debugOptions k
    rw [alGet_objAssign _ _ _ (extract_nodup_keys e).1, if_pos hk]
  · intro n hn hnz
    show (match (extractExecArgv e).debugPort with
      | some m => if m = 0 then (extractExecArgv a).debugPort else some m
      | none => (extractExecArgv a).debugPort) = some n
    rw [hn]
    simp [hnz]
  · intro hn
    show (match (extractExecArgv e).debugPort with
      | some m => if m = 0 then (extractExecArgv a).debugPort else some m
      | none => (extractExecArgv a).debugPort) = (extractExecArgv a).debugPort
    rw [hn]

/-- Witness for C6 (amended): argv and environment both set the harmony flag
`harmony_async_await` with different values, and both set ports; the merged
object carries the environment's value and the environment's port. -/
theorem mergeExecArgv_env_wins_witness :
    (alHas (extractExecArgv [("harmony_async_await", JsVal.str "env")]).execArgvObj
        "harmony_async_await" = true ∧
      (extractExecArgv [("inspect-port", JsVal.num 9229)]).debugPort = some 9229 ∧
      (9229 : Int) ≠ 0) ∧
    (alGet (mergeExecArgv [("harmony_async_await", JsVal.str "argv"),
          ("debug-port", JsVal.num 5858)]
        (some [("harmony_async_await", JsVal.str "env")])).execArgvObj "harmony_async_await"
      = alGet (extractExecArgv [("harmony_async_await", JsVal.str "env")]).execArgvObj
          "harmony_async_await" ∧
      (mergeExecArgv [("harmony_async_await", JsVal.str "argv"), ("debug-port", JsVal.num 5858)]
        (some [("inspect-port", JsVal.num 9229)])).debugPort = some 9229) :=
  ⟨⟨by decide, by decide, by decide⟩,
    ⟨(mergeExecArgv_env_wins [("harmony_async_await", JsVal.str "argv"),
        ("debug-port", JsVal.num 5858)] [("harmony_async_await", JsVal.str "env")]).1
        "harmony_async_await" (by decide),
      (mergeExecArgv_env_wins [("harmony_async_await", JsVal.str "argv"),
          ("debug-port", JsVal.num 5858)] [("inspect-port", JsVal.num 9229)]).2.2.1
        9229 (by decide) (by decide)⟩⟩
